import Mathlib

set_option autoImplicit false

/-!
Shallow embedding of `src/utils/EventDispatcher.js` (the Brackets event
dispatcher mixin) and proofs about its `on` / `off` / `trigger` /
`markDeprecated` operations.

Modelling conventions:
- JavaScript handler functions are modelled by an abstract type `H` with
  decidable equality; equality on `H` models the `===` identity comparison
  the source uses when removing handlers.
- The effect of actually calling a handler is modelled by a `behave`
  function returning `Except E Unit`; `Except.error` models the handler
  throwing.  `trigger` returns a trace of the invocations it performed and
  of the failures it forwarded to `console.error`, so that "every handler
  was invoked" and "the failure was reported" are statable.
- The per-object fields `_eventHandlers` and `_deprecatedEvents` are
  modelled as `Option`-wrapped association lists (JavaScript objects keep
  string keys in insertion order); `none` models the field being absent
  before its lazy creation.
- The host object itself only ever flows into the event descriptor
  (`target: this`), so it is modelled as an opaque value of a type `Host`
  separate from the mutable dispatcher state.
-/

namespace EventDispatcher

/-- Characters matched by the `\s` class of the regular expression
`/\s+/` that `on` and `off` use to split their specification string
(restricted to the ASCII whitespace characters). -/
def jsIsSpace (c : Char) : Bool :=
  c = ' ' || c = '\t' || c = '\n' || c = '\r' || c = '\x0b' || c = '\x0c'

/-- Worker for `splitWs`.  The second argument is `some acc` while a token
with (reversed) characters `acc` is being accumulated, and `none` while a
run of separator characters is being skipped.  This reproduces the
JavaScript semantics of `String.prototype.split(/\s+/)`: a separator run
at the start or end of the string contributes an empty boundary token, and
the empty string yields `[""]`. -/
def splitWsAux : List Char → Option (List Char) → List String
  | [], some acc => [String.mk acc.reverse]
  | [], none => [""]
  | c :: rest, some acc =>
      if jsIsSpace c then String.mk acc.reverse :: splitWsAux rest none
      else splitWsAux rest (some (c :: acc))
  | c :: rest, none =>
      if jsIsSpace c then splitWsAux rest none
      else splitWsAux rest (some [c])

/-- Model of `events.split(/\s+/)` from the source. -/
def splitWs (s : String) : List String :=
  splitWsAux s.data (some [])

/-- Result record of `splitNs`: the source returns `{eventName}` when the
token has no dot and `{eventName, ns}` when it has one, so `ns` is an
`Option`. -/
structure EventRec where
  eventName : String
  ns : Option String
deriving DecidableEq, Repr

/-- Model of `splitNs(eventStr)`: split a token on its first `.`; the
namespace, when present, includes the dot. -/
def splitNs (eventStr : String) : EventRec :=
  let rest := eventStr.data.dropWhile (fun c => c != '.')
  match rest with
  | [] => ⟨eventStr, none⟩
  | _ :: _ => ⟨String.mk (eventStr.data.takeWhile (fun c => c != '.')), some (String.mk rest)⟩

/-- One registration record, as pushed by `on`: the parsed token with the
handler reference attached (`eventsList[i].handler = fn`). -/
structure HandlerEntry (H : Type) where
  eventName : String
  ns : Option String
  handler : H
deriving DecidableEq, Repr

/-- The `_eventHandlers` object: map from event name to the array of
handler records, modelled as an association list in insertion order. -/
abbrev HandlerTable (H : Type) := List (String × List (HandlerEntry H))

/-- Property read `obj[k]` on a JavaScript object modelled as an
association list (first matching key wins; keys are unique in reachable
states). -/
def tblLookup {α : Type} (k : String) : List (String × α) → Option α
  | [] => none
  | p :: rest => if p.1 = k then some p.2 else tblLookup k rest

/-- Assignment `obj[k] = v` for a key already present: replace the stored
value, keeping key order. -/
def tblUpdate {α : Type} (k : String) (v : α) : List (String × α) → List (String × α)
  | [] => []
  | p :: rest => if p.1 = k then (k, v) :: tblUpdate k v rest else p :: tblUpdate k v rest

/-- The statement `delete obj[k]`: remove the key, keeping the order of the
remaining keys. -/
def tblDelete {α : Type} (k : String) : List (String × α) → List (String × α)
  | [] => []
  | p :: rest => if p.1 = k then tblDelete k rest else p :: tblDelete k rest

/-- Assignment `obj[k] = v` in general: overwrite when present, append the
new key otherwise (JavaScript objects append new string keys at the end of
the iteration order). -/
def tblInsert {α : Type} (k : String) (v : α) (tbl : List (String × α)) : List (String × α) :=
  match tblLookup k tbl with
  | none => tbl ++ [(k, v)]
  | some _ => tblUpdate k v tbl

/-- Value stored in `_deprecatedEvents`: `markDeprecated` stores
`insteadStr || true`, so either the bare flag `true` or a non-empty
suggestion string. -/
inductive DepInfo where
  | flag
  | use (insteadStr : String)
deriving DecidableEq, Repr

/-- The mutable per-object state of the mixin: the lazily created
`_eventHandlers` and `_deprecatedEvents` fields. -/
structure DispatcherState (H : Type) where
  eventHandlers : Option (HandlerTable H)
  deprecatedEvents : Option (List (String × DepInfo))
deriving DecidableEq, Repr

/-- State of an object right after `makeEventDispatcher(obj)`: the three
methods are attached but neither table has been created yet. -/
def makeEventDispatcher (H : Type) : DispatcherState H :=
  ⟨none, none⟩

/-- The value `insteadStr || true` stored by `markDeprecated` (an absent
or empty `insteadStr` is falsy, so the bare flag `true` is stored). -/
def depInfoOf (insteadStr : Option String) : DepInfo :=
  match insteadStr with
  | none => DepInfo.flag
  | some s => if s = "" then DepInfo.flag else DepInfo.use s

/-- Model of `markDeprecated(obj, eventName, insteadStr)`. -/
def markDeprecated {H : Type} (eventName : String) (insteadStr : Option String)
    (st : DispatcherState H) : DispatcherState H :=
  let dep := tblInsert eventName (depInfoOf insteadStr) (st.deprecatedEvents.getD [])
  { st with deprecatedEvents := some dep }

/-- The ASCII single-quote character (code point 39) with which the
deprecation warning wraps the event name. -/
def singleQuote : String :=
  String.mk [Char.ofNat 39]

/-- The warning text built by `on` for a deprecated event name (the source
also passes `new Error().stack` to `console.warn`; only the message is
modelled). -/
def depMessage (eventName : String) (d : DepInfo) : String :=
  let message :=
    "Registering for deprecated event " ++ singleQuote ++ eventName ++ singleQuote ++ "."
  match d with
  | DepInfo.flag => message
  | DepInfo.use insteadStr => message ++ " Use " ++ insteadStr ++ " instead."

/-- The body of the registration loop of `on` for one parsed token: create
the handler array for the event name if needed and push the record. -/
def pushEntry {H : Type} [DecidableEq H] (eventName : String) (e : HandlerEntry H)
    (tbl : HandlerTable H) : HandlerTable H :=
  match tblLookup eventName tbl with
  | none => tbl ++ [(eventName, [e])]
  | some l => tblUpdate eventName (l ++ [e]) tbl

/-- Model of `on(events, fn)`.  Returns the updated state together with
the list of deprecation warnings emitted through `console.warn`, in order.
The source performs no argument validation: the specification string is
split and every token — including empty boundary tokens — is registered. -/
def «on» {H : Type} [DecidableEq H] (events : String) (fn : H) (st : DispatcherState H) :
    DispatcherState H × List String :=
  let eventsList := (splitWs events).map splitNs
  -- check for deprecation warnings
  let warnings : List String :=
    match st.deprecatedEvents with
    | none => []
    | some dep => eventsList.filterMap fun rec =>
        (tblLookup rec.eventName dep).map (depMessage rec.eventName)
  -- attach listener for each event clause
  let tbl := eventsList.foldl
    (fun t rec => pushEntry rec.eventName ⟨rec.eventName, rec.ns, fn⟩ t)
    (st.eventHandlers.getD [])
  ({ st with eventHandlers := some tbl }, warnings)

/-- The namespace filter of `off`:
`!eventRec.ns || eventRec.ns === handlerList[k].ns`. -/
def nsMatches (recNs entryNs : Option String) : Bool :=
  match recNs with
  | none => true
  | some n => decide (entryNs = some n)

/-- Whether one handler record is removed by one `off` token: the
namespace filter and the handler-identity filter
(`!fn || fn === handlerList[k].handler`); the event-name filter is applied
by the caller through the choice of handler list. -/
def matchesEntry {H : Type} [DecidableEq H] (rec : EventRec) (fn : Option H)
    (e : HandlerEntry H) : Bool :=
  nsMatches rec.ns e.ns &&
    (match fn with
     | none => true
     | some f => decide (f = e.handler))

/-- Model of the inner `removeAllMatches(eventRec, eventName)` closure of
`off`.  The source walks the handler array backwards and splices out every
record passing both filters; the net effect is to keep exactly the
non-matching records in their original order.  When the array becomes
empty the key is deleted. -/
def removeAllMatches {H : Type} [DecidableEq H] (fn : Option H) (rec : EventRec)
    (eventName : String) (tbl : HandlerTable H) : HandlerTable H :=
  match tblLookup eventName tbl with
  | none => tbl
  | some handlerList =>
      let remaining := handlerList.filter (fun e => !(matchesEntry rec fn e))
      if remaining.isEmpty then tblDelete eventName tbl
      else tblUpdate eventName remaining tbl

/-- Model of the `doRemove(eventRec)` closure of `off`: a token with a
(truthy, hence non-empty) event name touches that handler list only; a
bare-namespace token is applied to every event name currently in the
table (`_.forEach` over the keys). -/
def doRemove {H : Type} [DecidableEq H] (fn : Option H) (rec : EventRec)
    (tbl : HandlerTable H) : HandlerTable H :=
  if rec.eventName ≠ "" then removeAllMatches fn rec rec.eventName tbl
  else (tbl.map Prod.fst).foldl (fun t k => removeAllMatches fn rec k t) tbl

/-- The table-level effect of `off(events, fn)` once `_eventHandlers`
exists: apply `doRemove` to each parsed token in order. -/
def offTable {H : Type} [DecidableEq H] (events : String) (fn : Option H)
    (tbl : HandlerTable H) : HandlerTable H :=
  ((splitWs events).map splitNs).foldl (fun t rec => doRemove fn rec t) tbl

/-- What `off` returns to its caller: `this` from the final
`return this;`, or `undefined` from the early `return;` taken when
`_eventHandlers` has never been created. -/
inductive OffResult where
  | self
  | undefined
deriving DecidableEq, Repr

/-- Model of `off(events, fn)`: the updated state and the returned value. -/
def off {H : Type} [DecidableEq H] (events : String) (fn : Option H)
    (st : DispatcherState H) : DispatcherState H × OffResult :=
  match st.eventHandlers with
  | none => (st, OffResult.undefined)
  | some tbl =>
      ({ st with eventHandlers := some (offTable events fn tbl) }, OffResult.self)

/-- The event descriptor `{ type: eventName, target: this }` passed as the
first argument of every handler invocation. -/
structure JsEvent (Host : Type) where
  type : String
  target : Host
deriving DecidableEq, Repr

/-- Observable outcome of one `trigger` call: the invocations performed,
in order, each with the descriptor and extra arguments it received, and
the failures forwarded to `console.error` (event name, host object,
error), in order.  `trigger` itself always returns control to its caller,
which the totality of the model expresses. -/
structure TriggerOutcome (H Host A E : Type) where
  calls : List (H × JsEvent Host × List A)
  reported : List (String × Host × E)
deriving DecidableEq, Repr

/-- Model of `trigger(eventName, ...args)`.  `behave h ev args` gives the
result of the call `h(ev, ...args)`: `Except.error err` models the handler
throwing `err`, which the source catches, logs via `console.error`, and
then continues with the next handler (`console.assert(false)` only breaks
into developer tools and does not alter control flow). -/
def trigger {H Host A E : Type} [DecidableEq H] (eventName : String) (args : List A) (host : Host)
    (behave : H → JsEvent Host → List A → Except E Unit)
    (st : DispatcherState H) : TriggerOutcome H Host A E :=
  let event : JsEvent Host := ⟨eventName, host⟩
  match st.eventHandlers.bind (tblLookup eventName) with
  | none => ⟨[], []⟩
  | some handlerList =>
      handlerList.foldl
        (fun out e =>
          match behave e.handler event args with
          | Except.ok _ => { out with calls := out.calls ++ [(e.handler, event, args)] }
          | Except.error err =>
              { calls := out.calls ++ [(e.handler, event, args)],
                reported := out.reported ++ [(eventName, host, err)] })
        ⟨[], []⟩

/-- Whether one parsed `off` token applies to the handler list stored
under the key `k`: a token with a non-empty event name selects that one
key, while a bare-namespace token (empty event name) is applied to every
key of the table. -/
def recApplies (rec : EventRec) (k : String) : Bool :=
  decide (rec.eventName = k) || decide (rec.eventName = "")

/-- Whether a handler record stored under key `k` is removed by at least
one of the parsed tokens of an `off` call with optional handler filter
`fn`.  This is the declarative removal criterion the implementation is
proved to realise. -/
def removedBy {H : Type} [DecidableEq H] (recs : List EventRec) (fn : Option H) (k : String)
    (e : HandlerEntry H) : Bool :=
  recs.any (fun rec => recApplies rec k && matchesEntry rec fn e)

/-- The handler records currently registered for event name `k` (the
empty list both when the table was never created and when the key is
absent). -/
def entriesFor {H : Type} (st : DispatcherState H) (k : String) : List (HandlerEntry H) :=
  (tblLookup k (st.eventHandlers.getD [])).getD []

/-- A sequence of `on` calls, applied in order. -/
def onSeq {H : Type} [DecidableEq H] (pairs : List (String × H))
    (st : DispatcherState H) : DispatcherState H :=
  pairs.foldl (fun s p => («on» p.1 p.2 s).1) st

/-- A sequence of `off` calls with explicit handler arguments, applied in
order. -/
def offSeq {H : Type} [DecidableEq H] (pairs : List (String × H))
    (st : DispatcherState H) : DispatcherState H :=
  pairs.foldl (fun s p => (off p.1 (some p.2) s).1) st

/-- A handler record under key `k` that one `on` call with arguments
`(p.1, p.2)` would have created: some token of the specification string
parses to the record with the handler attached. -/
def entryFromPair {H : Type} (p : String × H) (k : String) (e : HandlerEntry H) : Prop :=
  ∃ rec ∈ (splitWs p.1).map splitNs, k = rec.eventName ∧ e = ⟨rec.eventName, rec.ns, p.2⟩

/-- Key uniqueness of the handler table; all reachable states satisfy it. -/
def handlerKeysNodup {H : Type} (st : DispatcherState H) : Prop :=
  ∀ tbl, st.eventHandlers = some tbl → (tbl.map Prod.fst).Nodup

/-- Every key present in the handler table stores a non-empty handler
list; all reachable states satisfy it. -/
def handlerListsNonempty {H : Type} (st : DispatcherState H) : Prop :=
  ∀ tbl, st.eventHandlers = some tbl → ∀ p ∈ tbl, p.2 ≠ []

/-- The dispatcher states reachable from a freshly installed object by any
sequence of `on`, `off` and `markDeprecated` calls. -/
inductive Reachable {H : Type} [DecidableEq H] : DispatcherState H → Prop where
  | init : Reachable (makeEventDispatcher H)
  | stepOn (events : String) (fn : H) (st : DispatcherState H) :
      Reachable st → Reachable («on» events fn st).1
  | stepOff (events : String) (fn : Option H) (st : DispatcherState H) :
      Reachable st → Reachable (off events fn st).1
  | stepMark (eventName : String) (insteadStr : Option String) (st : DispatcherState H) :
      Reachable st → Reachable (markDeprecated eventName insteadStr st)

/-! Lemmas about the association-table primitives. -/

theorem tblLookup_mem {α : Type} {k : String} {v : α} {tbl : List (String × α)}
    (h : tblLookup k tbl = some v) : (k, v) ∈ tbl := by
  induction tbl with
  | nil => simp [tblLookup] at h
  | cons p rest ih =>
    obtain ⟨a, b⟩ := p
    rw [tblLookup] at h
    by_cases ha : a = k
    · simp only [ha, if_true, Option.some.injEq] at h
      simp [ha, h]
    · simp only [ha, if_false] at h
      exact List.mem_cons_of_mem _ (ih h)

theorem tblLookup_eq_none {α : Type} {k : String} {tbl : List (String × α)} :
    tblLookup k tbl = none ↔ k ∉ tbl.map Prod.fst := by
  induction tbl with
  | nil => simp [tblLookup]
  | cons p rest ih =>
    obtain ⟨a, b⟩ := p
    rw [tblLookup]
    by_cases ha : a = k
    · simp [ha]
    · simp [ha, ih, Ne.symm ha]

theorem tblLookup_append {α : Type} (k : String) (t1 t2 : List (String × α)) :
    tblLookup k (t1 ++ t2) =
      match tblLookup k t1 with
      | some v => some v
      | none => tblLookup k t2 := by
  induction t1 with
  | nil => simp [tblLookup]
  | cons p rest ih =>
    obtain ⟨a, b⟩ := p
    by_cases ha : a = k <;> simp [tblLookup, ha, ih]

theorem tblLookup_update_self {α : Type} (k : String) (v : α) (tbl : List (String × α)) :
    tblLookup k (tblUpdate k v tbl) = (tblLookup k tbl).map (fun _ => v) := by
  induction tbl with
  | nil => simp [tblLookup, tblUpdate]
  | cons p rest ih =>
    obtain ⟨a, b⟩ := p
    by_cases ha : a = k
    · simp [tblUpdate, tblLookup, ha]
    · simp [tblUpdate, tblLookup, ha, ih]

theorem tblLookup_update_ne {α : Type} {k k' : String} (v : α)
    {tbl : List (String × α)} (hk : k' ≠ k) :
    tblLookup k' (tblUpdate k v tbl) = tblLookup k' tbl := by
  induction tbl with
  | nil => simp [tblUpdate]
  | cons p rest ih =>
    obtain ⟨a, b⟩ := p
    by_cases ha : a = k
    · simp [tblUpdate, tblLookup, ha, Ne.symm hk, ih]
    · simp [tblUpdate, tblLookup, ha, ih]

theorem tblLookup_delete_self {α : Type} (k : String) (tbl : List (String × α)) :
    tblLookup k (tblDelete k tbl) = none := by
  induction tbl with
  | nil => simp [tblDelete, tblLookup]
  | cons p rest ih =>
    obtain ⟨a, b⟩ := p
    by_cases ha : a = k
    · simp [tblDelete, ha, ih]
    · simp [tblDelete, tblLookup, ha, ih]

theorem tblLookup_delete_ne {α : Type} {k k' : String}
    {tbl : List (String × α)} (hk : k' ≠ k) :
    tblLookup k' (tblDelete k tbl) = tblLookup k' tbl := by
  induction tbl with
  | nil => simp [tblDelete]
  | cons p rest ih =>
    obtain ⟨a, b⟩ := p
    by_cases ha : a = k
    · simp [tblDelete, tblLookup, ha, Ne.symm hk, ih]
    · simp [tblDelete, tblLookup, ha, ih]

theorem tblUpdate_map_fst {α : Type} (k : String) (v : α) (tbl : List (String × α)) :
    (tblUpdate k v tbl).map Prod.fst = tbl.map Prod.fst := by
  induction tbl with
  | nil => simp [tblUpdate]
  | cons p rest ih =>
    obtain ⟨a, b⟩ := p
    by_cases ha : a = k
    · simp [tblUpdate, ha, ih]
    · simp [tblUpdate, ha, ih]

theorem tblDelete_sublist {α : Type} (k : String) (tbl : List (String × α)) :
    (tblDelete k tbl).Sublist tbl := by
  induction tbl with
  | nil => simp [tblDelete]
  | cons p rest ih =>
    obtain ⟨a, b⟩ := p
    by_cases ha : a = k
    · simp only [tblDelete, ha, if_true]
      exact ih.cons _
    · simp only [tblDelete, ha, if_false]
      exact ih.cons₂ _

theorem mem_tblUpdate {α : Type} {k : String} {v : α} {p : String × α}
    {tbl : List (String × α)} (h : p ∈ tblUpdate k v tbl) : p = (k, v) ∨ p ∈ tbl := by
  induction tbl with
  | nil => simp [tblUpdate] at h
  | cons q rest ih =>
    obtain ⟨a, b⟩ := q
    by_cases ha : a = k
    · simp only [tblUpdate, ha, if_true, List.mem_cons] at h
      rcases h with h | h
      · exact Or.inl h
      · rcases ih h with h | h
        · exact Or.inl h
        · exact Or.inr (List.mem_cons_of_mem _ h)
    · simp only [tblUpdate, ha, if_false, List.mem_cons] at h
      rcases h with h | h
      · exact Or.inr (by simp [h])
      · rcases ih h with h | h
        · exact Or.inl h
        · exact Or.inr (List.mem_cons_of_mem _ h)

theorem tblLookup_pushEntry_self {H : Type} [DecidableEq H] (k : String)
    (e : HandlerEntry H) (tbl : HandlerTable H) :
    tblLookup k (pushEntry k e tbl) = some ((tblLookup k tbl).getD [] ++ [e]) := by
  cases h : tblLookup k tbl with
  | none =>
    simp only [pushEntry, h]
    rw [tblLookup_append]
    simp [h, tblLookup]
  | some l =>
    simp [pushEntry, h, tblLookup_update_self]

theorem tblLookup_pushEntry_ne {H : Type} [DecidableEq H] {k k' : String}
    (e : HandlerEntry H) {tbl : HandlerTable H} (hk : k' ≠ k) :
    tblLookup k' (pushEntry k e tbl) = tblLookup k' tbl := by
  cases h : tblLookup k tbl with
  | none =>
    simp only [pushEntry, h]
    rw [tblLookup_append]
    cases tblLookup k' tbl <;> simp [tblLookup, Ne.symm hk]
  | some l =>
    simp [pushEntry, h, tblLookup_update_ne _ hk]

theorem pushEntry_nodup {H : Type} [DecidableEq H] {k : String}
    (e : HandlerEntry H) {tbl : HandlerTable H}
    (h : (tbl.map Prod.fst).Nodup) : ((pushEntry k e tbl).map Prod.fst).Nodup := by
  cases hl : tblLookup k tbl with
  | none =>
    have hk : k ∉ tbl.map Prod.fst := tblLookup_eq_none.mp hl
    simp only [pushEntry, hl, List.map_append, List.map_cons, List.map_nil]
    rw [List.nodup_append]
    refine ⟨h, List.nodup_singleton k, ?_⟩
    intro a ha hb
    simp only [List.mem_singleton] at hb
    exact hk (hb ▸ ha)
  | some l =>
    simpa [pushEntry, hl, tblUpdate_map_fst] using h

theorem pushEntry_wf {H : Type} [DecidableEq H] {k : String}
    {e : HandlerEntry H} {tbl : HandlerTable H}
    (h : ∀ p ∈ tbl, p.2 ≠ []) : ∀ p ∈ pushEntry k e tbl, p.2 ≠ [] := by
  intro p hp
  cases hl : tblLookup k tbl with
  | none =>
    simp only [pushEntry, hl, List.mem_append, List.mem_singleton] at hp
    rcases hp with hp | hp
    · exact h p hp
    · simp [hp]
  | some l =>
    rw [pushEntry, hl] at hp
    rcases mem_tblUpdate hp with hp | hp
    · simp [hp]
    · exact h p hp

/-! Lemmas about `removeAllMatches`, `doRemove` and `offTable`. -/

theorem removeAllMatches_lookup_ne {H : Type} [DecidableEq H] (fn : Option H)
    (rec : EventRec) {k k' : String} (tbl : HandlerTable H) (hk : k' ≠ k) :
    tblLookup k' (removeAllMatches fn rec k tbl) = tblLookup k' tbl := by
  cases h : tblLookup k tbl with
  | none => simp [removeAllMatches, h]
  | some hl =>
    simp only [removeAllMatches, h]
    split
    · exact tblLookup_delete_ne hk
    · exact tblLookup_update_ne _ hk

theorem removeAllMatches_lookup_self {H : Type} [DecidableEq H] (fn : Option H)
    (rec : EventRec) (k : String) (tbl : HandlerTable H) :
    tblLookup k (removeAllMatches fn rec k tbl) =
      match tblLookup k tbl with
      | none => none
      | some hl =>
          if (hl.filter (fun e => !(matchesEntry rec fn e))).isEmpty then none
          else some (hl.filter (fun e => !(matchesEntry rec fn e))) := by
  cases h : tblLookup k tbl with
  | none => simp [removeAllMatches, h]
  | some hl =>
    simp only [removeAllMatches, h]
    split
    · next hemp => simp [tblLookup_delete_self, hemp]
    · next hemp => simp [tblLookup_update_self, h, hemp]

theorem removeAllMatches_wf {H : Type} [DecidableEq H] {fn : Option H}
    {rec : EventRec} {k : String} {tbl : HandlerTable H}
    (h : ∀ p ∈ tbl, p.2 ≠ []) : ∀ p ∈ removeAllMatches fn rec k tbl, p.2 ≠ [] := by
  intro p hp
  cases hl : tblLookup k tbl with
  | none =>
    rw [removeAllMatches, hl] at hp
    exact h p hp
  | some l =>
    rw [removeAllMatches, hl] at hp
    simp only at hp
    split at hp
    · exact h p ((tblDelete_sublist k tbl).subset hp)
    · next hemp =>
      rcases mem_tblUpdate hp with hp | hp
      · subst hp
        simpa [List.isEmpty_iff] using hemp
      · exact h p hp

theorem removeAllMatches_keys_sublist {H : Type} [DecidableEq H] (fn : Option H)
    (rec : EventRec) (k : String) (tbl : HandlerTable H) :
    ((removeAllMatches fn rec k tbl).map Prod.fst).Sublist (tbl.map Prod.fst) := by
  cases hl : tblLookup k tbl with
  | none => simp [removeAllMatches, hl]
  | some l =>
    simp only [removeAllMatches, hl]
    split
    · exact (tblDelete_sublist k tbl).map Prod.fst
    · rw [tblUpdate_map_fst]

theorem fold_removeAll_keys_sublist {H : Type} [DecidableEq H] (fn : Option H)
    (rec : EventRec) (ks : List String) (tbl : HandlerTable H) :
    ((ks.foldl (fun t k => removeAllMatches fn rec k t) tbl).map Prod.fst).Sublist
      (tbl.map Prod.fst) := by
  induction ks generalizing tbl with
  | nil => exact List.Sublist.refl _
  | cons k ks ih =>
    rw [List.foldl_cons]
    exact (ih _).trans (removeAllMatches_keys_sublist fn rec k tbl)

theorem fold_removeAll_wf {H : Type} [DecidableEq H] {fn : Option H}
    {rec : EventRec} (ks : List String) {tbl : HandlerTable H}
    (h : ∀ p ∈ tbl, p.2 ≠ []) :
    ∀ p ∈ ks.foldl (fun t k => removeAllMatches fn rec k t) tbl, p.2 ≠ [] := by
  induction ks generalizing tbl with
  | nil => exact h
  | cons k ks ih =>
    rw [List.foldl_cons]
    exact ih (removeAllMatches_wf h)

theorem doRemove_keys_sublist {H : Type} [DecidableEq H] (fn : Option H)
    (rec : EventRec) (tbl : HandlerTable H) :
    ((doRemove fn rec tbl).map Prod.fst).Sublist (tbl.map Prod.fst) := by
  rw [doRemove]
  split
  · exact removeAllMatches_keys_sublist fn rec _ tbl
  · exact fold_removeAll_keys_sublist fn rec _ tbl

theorem doRemove_nodup {H : Type} [DecidableEq H] {fn : Option H}
    {rec : EventRec} {tbl : HandlerTable H}
    (h : (tbl.map Prod.fst).Nodup) : ((doRemove fn rec tbl).map Prod.fst).Nodup :=
  (doRemove_keys_sublist fn rec tbl).nodup h

theorem doRemove_wf {H : Type} [DecidableEq H] {fn : Option H}
    {rec : EventRec} {tbl : HandlerTable H}
    (h : ∀ p ∈ tbl, p.2 ≠ []) : ∀ p ∈ doRemove fn rec tbl, p.2 ≠ [] := by
  rw [doRemove]
  split
  · exact removeAllMatches_wf h
  · exact fold_removeAll_wf _ h

theorem tblLookup_fold_removeAll {H : Type} [DecidableEq H] (fn : Option H)
    (rec : EventRec) (ks : List String) (k : String) (tbl : HandlerTable H)
    (hnd : ks.Nodup) :
    tblLookup k (ks.foldl (fun t k' => removeAllMatches fn rec k' t) tbl) =
      if k ∈ ks then
        match tblLookup k tbl with
        | none => none
        | some hl =>
            if (hl.filter (fun e => !(matchesEntry rec fn e))).isEmpty then none
            else some (hl.filter (fun e => !(matchesEntry rec fn e)))
      else tblLookup k tbl := by
  induction ks generalizing tbl with
  | nil => simp
  | cons k' ks ih =>
    have hnd' : ks.Nodup := hnd.of_cons
    rw [List.foldl_cons]
    by_cases hk : k = k'
    · subst hk
      have hk2 : k ∉ ks := (List.nodup_cons.mp hnd).1
      rw [ih _ hnd', if_neg hk2, removeAllMatches_lookup_self]
      simp
    · rw [ih _ hnd', removeAllMatches_lookup_ne fn rec tbl hk]
      simp [List.mem_cons, hk]

theorem tblLookup_doRemove {H : Type} [DecidableEq H] (fn : Option H)
    (rec : EventRec) (tbl : HandlerTable H) (k : String)
    (hnd : (tbl.map Prod.fst).Nodup) (hwf : ∀ p ∈ tbl, p.2 ≠ []) :
    tblLookup k (doRemove fn rec tbl) =
      match tblLookup k tbl with
      | none => none
      | some hl =>
          if (hl.filter (fun e => !(recApplies rec k && matchesEntry rec fn e))).isEmpty then none
          else some (hl.filter (fun e => !(recApplies rec k && matchesEntry rec fn e))) := by
  rw [doRemove]
  split
  · next hev =>
    by_cases hk : k = rec.eventName
    · subst hk
      rw [removeAllMatches_lookup_self]
      have happ : recApplies rec rec.eventName = true := by simp [recApplies]
      cases tblLookup rec.eventName tbl <;> simp [happ]
    · rw [removeAllMatches_lookup_ne fn rec tbl hk]
      have happ : recApplies rec k = false := by
        simp only [recApplies, Bool.or_eq_false_iff, decide_eq_false_iff_not]
        exact ⟨fun h => hk h.symm, hev⟩
      cases h : tblLookup k tbl with
      | none => simp
      | some hl =>
        have hne : hl.isEmpty = false :=
          List.isEmpty_eq_false.mpr (hwf (k, hl) (tblLookup_mem h))
        simp [happ, hne]
  · next hev =>
    have hev : rec.eventName = "" := by simpa using hev
    rw [tblLookup_fold_removeAll fn rec _ k tbl hnd]
    have happ : recApplies rec k = true := by simp [recApplies, hev]
    by_cases hmem : k ∈ tbl.map Prod.fst
    · rw [if_pos hmem]
      cases tblLookup k tbl <;> simp [happ]
    · rw [if_neg hmem, tblLookup_eq_none.mpr hmem]

theorem tblLookup_fold_doRemove {H : Type} [DecidableEq H] (fn : Option H)
    (recs : List EventRec) (tbl : HandlerTable H) (k : String)
    (hnd : (tbl.map Prod.fst).Nodup) (hwf : ∀ p ∈ tbl, p.2 ≠ []) :
    tblLookup k (recs.foldl (fun t rec => doRemove fn rec t) tbl) =
      match tblLookup k tbl with
      | none => none
      | some hl =>
          if (hl.filter (fun e => !(removedBy recs fn k e))).isEmpty then none
          else some (hl.filter (fun e => !(removedBy recs fn k e))) := by
  induction recs generalizing tbl with
  | nil =>
    simp only [List.foldl_nil]
    cases h : tblLookup k tbl with
    | none => simp
    | some hl =>
      have hne : hl.isEmpty = false :=
        List.isEmpty_eq_false.mpr (hwf (k, hl) (tblLookup_mem h))
      simp [removedBy, hne]
  | cons rec recs ih =>
    rw [List.foldl_cons,
      ih (doRemove fn rec tbl) (doRemove_nodup hnd) (doRemove_wf hwf),
      tblLookup_doRemove fn rec tbl k hnd hwf]
    have hff : ∀ (l : List (HandlerEntry H)),
        (l.filter (fun e => !(recApplies rec k && matchesEntry rec fn e))).filter
            (fun e => !(removedBy recs fn k e)) =
          l.filter (fun e => !(removedBy (rec :: recs) fn k e)) := by
      intro l
      rw [List.filter_filter]
      apply List.filter_congr
      intro e _
      simp [removedBy, Bool.not_or, Bool.and_comm]
    cases h : tblLookup k tbl with
    | none => rfl
    | some hl =>
      dsimp only
      by_cases hemp :
          (hl.filter (fun e => !(recApplies rec k && matchesEntry rec fn e))).isEmpty = true
      · have h1 : hl.filter (fun e => !(recApplies rec k && matchesEntry rec fn e)) = [] :=
          List.isEmpty_iff.mp hemp
        have h2 : hl.filter (fun e => !(removedBy (rec :: recs) fn k e)) = [] := by
          rw [← hff hl, h1, List.filter_nil]
        rw [h1, h2]
        simp
      · rw [Bool.not_eq_true] at hemp
        rw [hemp]
        simp only [Bool.false_eq_true, if_false, hff hl]

/-! Lemmas about `trigger`, `on` and `off` at the state level. -/

theorem trigger_foldl {H Host A E : Type} (eventName : String)
    (args : List A) (host : Host) (behave : H → JsEvent Host → List A → Except E Unit)
    (hl : List (HandlerEntry H)) (out : TriggerOutcome H Host A E) :
    hl.foldl
        (fun out e =>
          match behave e.handler ⟨eventName, host⟩ args with
          | Except.ok _ =>
              { out with calls := out.calls ++ [(e.handler, ⟨eventName, host⟩, args)] }
          | Except.error err =>
              { calls := out.calls ++ [(e.handler, ⟨eventName, host⟩, args)],
                reported := out.reported ++ [(eventName, host, err)] })
        out =
      ⟨out.calls ++ hl.map (fun e => (e.handler, ⟨eventName, host⟩, args)),
       out.reported ++ hl.filterMap (fun e =>
         match behave e.handler ⟨eventName, host⟩ args with
         | Except.ok _ => none
         | Except.error err => some (eventName, host, err))⟩ := by
  induction hl generalizing out with
  | nil => simp
  | cons e hl ih =>
    rw [List.foldl_cons]
    cases hbe : behave e.handler ⟨eventName, host⟩ args with
    | ok u =>
      rw [ih]
      simp [hbe]
    | error err =>
      rw [ih]
      simp [hbe]

theorem trigger_spec {H Host A E : Type} [DecidableEq H] (eventName : String)
    (args : List A) (host : Host) (behave : H → JsEvent Host → List A → Except E Unit)
    (st : DispatcherState H) :
    trigger eventName args host behave st =
      ⟨((st.eventHandlers.bind (tblLookup eventName)).getD []).map
         (fun e => (e.handler, ⟨eventName, host⟩, args)),
       ((st.eventHandlers.bind (tblLookup eventName)).getD []).filterMap
         (fun e =>
           match behave e.handler ⟨eventName, host⟩ args with
           | Except.ok _ => none
           | Except.error err => some (eventName, host, err))⟩ := by
  rw [trigger]
  cases h : st.eventHandlers.bind (tblLookup eventName) with
  | none => simp
  | some hl =>
    simp only [Option.getD_some]
    rw [trigger_foldl]
    simp

theorem on_eventHandlers {H : Type} [DecidableEq H] (events : String) (fn : H)
    (st : DispatcherState H) :
    («on» events fn st).1.eventHandlers =
      some (((splitWs events).map splitNs).foldl
        (fun t rec => pushEntry rec.eventName ⟨rec.eventName, rec.ns, fn⟩ t)
        (st.eventHandlers.getD [])) := by
  rw [«on»]

theorem on_deprecatedEvents {H : Type} [DecidableEq H] (events : String) (fn : H)
    (st : DispatcherState H) :
    («on» events fn st).1.deprecatedEvents = st.deprecatedEvents := by
  rw [«on»]

theorem off_of_none {H : Type} [DecidableEq H] (events : String) (fn : Option H)
    {st : DispatcherState H} (h : st.eventHandlers = none) :
    off events fn st = (st, OffResult.undefined) := by
  rw [off, h]

theorem off_of_some {H : Type} [DecidableEq H] (events : String) (fn : Option H)
    {st : DispatcherState H} {tbl : HandlerTable H} (h : st.eventHandlers = some tbl) :
    off events fn st =
      ({ st with eventHandlers := some (offTable events fn tbl) }, OffResult.self) := by
  rw [off, h]

theorem fold_push_nodup {H : Type} [DecidableEq H] (recs : List EventRec) (fn : H)
    {tbl : HandlerTable H} (h : (tbl.map Prod.fst).Nodup) :
    (((recs.foldl (fun t rec => pushEntry rec.eventName ⟨rec.eventName, rec.ns, fn⟩ t)
      tbl)).map Prod.fst).Nodup := by
  induction recs generalizing tbl with
  | nil => exact h
  | cons rec recs ih =>
    rw [List.foldl_cons]
    exact ih (pushEntry_nodup _ h)

theorem fold_push_wf {H : Type} [DecidableEq H] (recs : List EventRec) (fn : H)
    {tbl : HandlerTable H} (h : ∀ p ∈ tbl, p.2 ≠ []) :
    ∀ p ∈ recs.foldl (fun t rec => pushEntry rec.eventName ⟨rec.eventName, rec.ns, fn⟩ t) tbl,
      p.2 ≠ [] := by
  induction recs generalizing tbl with
  | nil => exact h
  | cons rec recs ih =>
    rw [List.foldl_cons]
    exact ih (pushEntry_wf h)

theorem fold_doRemove_nodup {H : Type} [DecidableEq H] (recs : List EventRec) (fn : Option H)
    {tbl : HandlerTable H} (h : (tbl.map Prod.fst).Nodup) :
    ((recs.foldl (fun t rec => doRemove fn rec t) tbl).map Prod.fst).Nodup := by
  induction recs generalizing tbl with
  | nil => exact h
  | cons rec recs ih =>
    rw [List.foldl_cons]
    exact ih (doRemove_nodup h)

theorem fold_doRemove_wf {H : Type} [DecidableEq H] (recs : List EventRec) (fn : Option H)
    {tbl : HandlerTable H} (h : ∀ p ∈ tbl, p.2 ≠ []) :
    ∀ p ∈ recs.foldl (fun t rec => doRemove fn rec t) tbl, p.2 ≠ [] := by
  induction recs generalizing tbl with
  | nil => exact h
  | cons rec recs ih =>
    rw [List.foldl_cons]
    exact ih (doRemove_wf h)

theorem handlerKeysNodup_make {H : Type} : handlerKeysNodup (makeEventDispatcher H) := by
  intro tbl h
  simp [makeEventDispatcher] at h

theorem handlerListsNonempty_make {H : Type} :
    handlerListsNonempty (makeEventDispatcher H) := by
  intro tbl h
  simp [makeEventDispatcher] at h

theorem handlerKeysNodup_getD {H : Type} {st : DispatcherState H}
    (h : handlerKeysNodup st) : ((st.eventHandlers.getD []).map Prod.fst).Nodup := by
  cases hst : st.eventHandlers with
  | none => simp
  | some tbl => simpa using h tbl hst

theorem handlerListsNonempty_getD {H : Type} {st : DispatcherState H}
    (h : handlerListsNonempty st) : ∀ p ∈ st.eventHandlers.getD [], p.2 ≠ [] := by
  cases hst : st.eventHandlers with
  | none => simp
  | some tbl => simpa using h tbl hst

theorem handlerKeysNodup_on {H : Type} [DecidableEq H] (events : String) (fn : H)
    {st : DispatcherState H} (h : handlerKeysNodup st) :
    handlerKeysNodup («on» events fn st).1 := by
  intro tbl' htbl'
  rw [on_eventHandlers, Option.some.injEq] at htbl'
  subst htbl'
  exact fold_push_nodup _ fn (handlerKeysNodup_getD h)

theorem handlerListsNonempty_on {H : Type} [DecidableEq H] (events : String) (fn : H)
    {st : DispatcherState H} (h : handlerListsNonempty st) :
    handlerListsNonempty («on» events fn st).1 := by
  intro tbl' htbl'
  rw [on_eventHandlers, Option.some.injEq] at htbl'
  subst htbl'
  exact fold_push_wf _ fn (handlerListsNonempty_getD h)

theorem handlerKeysNodup_off {H : Type} [DecidableEq H] (events : String) (fn : Option H)
    {st : DispatcherState H} (h : handlerKeysNodup st) :
    handlerKeysNodup (off events fn st).1 := by
  cases hst : st.eventHandlers with
  | none => rw [off_of_none events fn hst]; exact h
  | some tbl =>
    rw [off_of_some events fn hst]
    intro tbl' htbl'
    rw [Option.some.injEq] at htbl'
    subst htbl'
    exact fold_doRemove_nodup _ fn (h tbl hst)

theorem handlerListsNonempty_off {H : Type} [DecidableEq H] (events : String) (fn : Option H)
    {st : DispatcherState H} (h : handlerListsNonempty st) :
    handlerListsNonempty (off events fn st).1 := by
  cases hst : st.eventHandlers with
  | none => rw [off_of_none events fn hst]; exact h
  | some tbl =>
    rw [off_of_some events fn hst]
    intro tbl' htbl'
    rw [Option.some.injEq] at htbl'
    subst htbl'
    exact fold_doRemove_wf _ fn (h tbl hst)

theorem handlerKeysNodup_markDeprecated {H : Type} (eventName : String)
    (insteadStr : Option String) {st : DispatcherState H} (h : handlerKeysNodup st) :
    handlerKeysNodup (markDeprecated eventName insteadStr st) := h

theorem handlerListsNonempty_markDeprecated {H : Type} (eventName : String)
    (insteadStr : Option String) {st : DispatcherState H} (h : handlerListsNonempty st) :
    handlerListsNonempty (markDeprecated eventName insteadStr st) := h

theorem reachable_invariants {H : Type} [DecidableEq H] {st : DispatcherState H}
    (h : Reachable st) : handlerKeysNodup st ∧ handlerListsNonempty st := by
  induction h with
  | init => exact ⟨handlerKeysNodup_make, handlerListsNonempty_make⟩
  | stepOn events fn st _ ih =>
    exact ⟨handlerKeysNodup_on events fn ih.1, handlerListsNonempty_on events fn ih.2⟩
  | stepOff events fn st _ ih =>
    exact ⟨handlerKeysNodup_off events fn ih.1, handlerListsNonempty_off events fn ih.2⟩
  | stepMark eventName insteadStr st _ ih =>
    exact ⟨handlerKeysNodup_markDeprecated eventName insteadStr ih.1,
      handlerListsNonempty_markDeprecated eventName insteadStr ih.2⟩

/-! Origin and removal of individual handler records, towards the
round-trip property. -/

theorem mem_fold_push {H : Type} [DecidableEq H] {recs : List EventRec} {fn : H}
    {tbl : HandlerTable H} {k : String} {e : HandlerEntry H}
    (h : e ∈ (tblLookup k
      (recs.foldl (fun t rec => pushEntry rec.eventName ⟨rec.eventName, rec.ns, fn⟩ t)
        tbl)).getD []) :
    e ∈ (tblLookup k tbl).getD [] ∨
      ∃ rec ∈ recs, k = rec.eventName ∧ e = ⟨rec.eventName, rec.ns, fn⟩ := by
  induction recs generalizing tbl with
  | nil => exact Or.inl h
  | cons rec recs ih =>
    rw [List.foldl_cons] at h
    rcases ih h with h | ⟨r, hr, hk, he⟩
    · by_cases hk : k = rec.eventName
      · subst hk
        rw [tblLookup_pushEntry_self, Option.getD_some, List.mem_append] at h
        rcases h with h | h
        · exact Or.inl h
        · rw [List.mem_singleton] at h
          exact Or.inr ⟨rec, List.mem_cons_self rec recs, rfl, h⟩
      · rw [tblLookup_pushEntry_ne _ hk] at h
        exact Or.inl h
    · exact Or.inr ⟨r, List.mem_cons_of_mem rec hr, hk, he⟩

theorem mem_entriesFor_on {H : Type} [DecidableEq H] {events : String} {fn : H}
    {st : DispatcherState H} {k : String} {e : HandlerEntry H}
    (h : e ∈ entriesFor («on» events fn st).1 k) :
    e ∈ entriesFor st k ∨ entryFromPair (events, fn) k e := by
  rw [entriesFor, on_eventHandlers, Option.getD_some] at h
  rcases mem_fold_push h with h | ⟨rec, hrec, hk, he⟩
  · exact Or.inl h
  · exact Or.inr ⟨rec, hrec, hk, he⟩

theorem mem_entriesFor_onSeq {H : Type} [DecidableEq H] {pairs : List (String × H)}
    {st : DispatcherState H} {k : String} {e : HandlerEntry H}
    (h : e ∈ entriesFor (onSeq pairs st) k) :
    e ∈ entriesFor st k ∨ ∃ p ∈ pairs, entryFromPair p k e := by
  induction pairs generalizing st with
  | nil => exact Or.inl h
  | cons p pairs ih =>
    rw [onSeq, List.foldl_cons] at h
    rcases ih h with h | ⟨q, hq, hfp⟩
    · rcases mem_entriesFor_on h with h | hfp
      · exact Or.inl h
      · exact Or.inr ⟨p, List.mem_cons_self p pairs, hfp⟩
    · exact Or.inr ⟨q, List.mem_cons_of_mem p hq, hfp⟩

theorem removedBy_of_fromPair {H : Type} [DecidableEq H] {events : String} {f : H}
    {k : String} {e : HandlerEntry H} (h : entryFromPair (events, f) k e) :
    removedBy ((splitWs events).map splitNs) (some f) k e = true := by
  obtain ⟨rec, hrec, hk, he⟩ := h
  subst hk
  subst he
  rw [removedBy, List.any_eq_true]
  refine ⟨rec, hrec, ?_⟩
  cases hns : rec.ns <;>
    simp [recApplies, matchesEntry, nsMatches, hns]

theorem mem_entriesFor_off {H : Type} [DecidableEq H] {events : String} {fn : Option H}
    {st : DispatcherState H} {k : String} {e : HandlerEntry H}
    (hnd : handlerKeysNodup st) (hwf : handlerListsNonempty st)
    (h : e ∈ entriesFor (off events fn st).1 k) :
    e ∈ entriesFor st k ∧
      removedBy ((splitWs events).map splitNs) fn k e = false := by
  cases hst : st.eventHandlers with
  | none =>
    rw [off_of_none events fn hst] at h
    rw [entriesFor, hst] at h
    simp [tblLookup] at h
  | some tbl =>
    rw [off_of_some events fn hst] at h
    rw [entriesFor] at h
    simp only [Option.getD_some] at h
    rw [offTable] at h
    rw [tblLookup_fold_doRemove fn _ tbl k (hnd tbl hst) (hwf tbl hst)] at h
    cases hL : tblLookup k tbl with
    | none => rw [hL] at h; simp at h
    | some hl =>
      rw [hL] at h
      dsimp only at h
      by_cases hemp : (hl.filter (fun e => !(removedBy ((splitWs events).map splitNs) fn k e))).isEmpty = true
      · rw [if_pos hemp] at h
        simp at h
      · rw [if_neg hemp, Option.getD_some] at h
        have hmem := List.mem_filter.mp h
        refine ⟨?_, ?_⟩
        · rw [entriesFor, hst, Option.getD_some, hL, Option.getD_some]
          exact hmem.1
        · simpa using hmem.2

theorem mem_entriesFor_offSeq {H : Type} [DecidableEq H] {qs : List (String × H)}
    {st : DispatcherState H} {k : String} {e : HandlerEntry H}
    (hnd : handlerKeysNodup st) (hwf : handlerListsNonempty st)
    (h : e ∈ entriesFor (offSeq qs st) k) :
    e ∈ entriesFor st k ∧ ∀ q ∈ qs, ¬ entryFromPair q k e := by
  induction qs generalizing st with
  | nil => exact ⟨h, by simp⟩
  | cons q qs ih =>
    rw [offSeq, List.foldl_cons] at h
    obtain ⟨h1, h2⟩ := ih (handlerKeysNodup_off q.1 (some q.2) hnd)
      (handlerListsNonempty_off q.1 (some q.2) hwf) h
    obtain ⟨h0, hrm⟩ := mem_entriesFor_off hnd hwf h1
    refine ⟨h0, ?_⟩
    intro q' hq'
    rcases List.mem_cons.mp hq' with hq' | hq'
    · subst hq'
      intro hfp
      rw [removedBy_of_fromPair hfp] at hrm
      simp at hrm
    · exact h2 q' hq'

/-! Lemmas about boundary tokens of `splitWs` and monotonicity of
registration, plus sequence-level invariants. -/

theorem splitWs_head_space {s : String} {c : Char} {cs : List Char}
    (hd : s.data = c :: cs) (hc : jsIsSpace c = true) : "" ∈ splitWs s := by
  rw [splitWs, hd, splitWsAux, hc]
  simp only [if_true, List.reverse_nil]
  exact List.mem_cons_self _ _

theorem splitWsAux_concat_space {c : Char} (hc : jsIsSpace c = true) (l : List Char) :
    ∀ st : Option (List Char), "" ∈ splitWsAux (l ++ [c]) st := by
  induction l with
  | nil =>
    intro st
    cases st with
    | some acc =>
      rw [List.nil_append, splitWsAux, hc]
      simp only [if_true]
      rw [splitWsAux]
      exact List.mem_cons_of_mem _ (List.mem_singleton.mpr rfl)
    | none =>
      rw [List.nil_append, splitWsAux, hc]
      simp only [if_true]
      rw [splitWsAux]
      exact List.mem_singleton.mpr rfl
  | cons x l ih =>
    intro st
    cases st with
    | some acc =>
      rw [List.cons_append, splitWsAux]
      by_cases hx : jsIsSpace x
      · rw [hx]
        simp only [if_true]
        exact List.mem_cons_of_mem _ (ih none)
      · simp only [hx, Bool.false_eq_true, if_false]
        exact ih _
    | none =>
      rw [List.cons_append, splitWsAux]
      by_cases hx : jsIsSpace x
      · rw [hx]
        simp only [if_true]
        exact ih none
      · simp only [hx, Bool.false_eq_true, if_false]
        exact ih _

theorem splitWs_last_space {s : String} {c : Char}
    (hd : s.data.getLast? = some c) (hc : jsIsSpace c = true) : "" ∈ splitWs s := by
  obtain ⟨l, hl⟩ := List.getLast?_eq_some_iff.mp hd
  rw [splitWs, hl]
  exact splitWsAux_concat_space hc l _

theorem tblLookup_pushEntry_isSome {H : Type} [DecidableEq H] {k : String}
    (k' : String) (e : HandlerEntry H) {tbl : HandlerTable H}
    (h : tblLookup k tbl ≠ none) : tblLookup k (pushEntry k' e tbl) ≠ none := by
  by_cases hk : k = k'
  · subst hk
    rw [tblLookup_pushEntry_self]
    simp
  · rw [tblLookup_pushEntry_ne _ hk]
    exact h

theorem fold_push_lookup_isSome {H : Type} [DecidableEq H] {recs : List EventRec}
    {fn : H} {tbl : HandlerTable H} {k : String} (h : tblLookup k tbl ≠ none) :
    tblLookup k
      (recs.foldl (fun t rec => pushEntry rec.eventName ⟨rec.eventName, rec.ns, fn⟩ t) tbl)
      ≠ none := by
  induction recs generalizing tbl with
  | nil => exact h
  | cons rec recs ih =>
    rw [List.foldl_cons]
    exact ih (tblLookup_pushEntry_isSome _ _ h)

theorem fold_push_lookup_of_mem {H : Type} [DecidableEq H] {recs : List EventRec}
    (fn : H) (tbl : HandlerTable H) {rec : EventRec} (h : rec ∈ recs) :
    tblLookup rec.eventName
      (recs.foldl (fun t r => pushEntry r.eventName ⟨r.eventName, r.ns, fn⟩ t) tbl)
      ≠ none := by
  induction recs generalizing tbl with
  | nil => simp at h
  | cons r recs ih =>
    rw [List.foldl_cons]
    rcases List.mem_cons.mp h with h | h
    · subst h
      apply fold_push_lookup_isSome
      rw [tblLookup_pushEntry_self]
      simp
    · exact ih _ h

theorem handlerKeysNodup_onSeq {H : Type} [DecidableEq H] (pairs : List (String × H))
    {st : DispatcherState H} (h : handlerKeysNodup st) : handlerKeysNodup (onSeq pairs st) := by
  induction pairs generalizing st with
  | nil => exact h
  | cons p pairs ih =>
    rw [onSeq, List.foldl_cons]
    exact ih (handlerKeysNodup_on p.1 p.2 h)

theorem handlerListsNonempty_onSeq {H : Type} [DecidableEq H] (pairs : List (String × H))
    {st : DispatcherState H} (h : handlerListsNonempty st) :
    handlerListsNonempty (onSeq pairs st) := by
  induction pairs generalizing st with
  | nil => exact h
  | cons p pairs ih =>
    rw [onSeq, List.foldl_cons]
    exact ih (handlerListsNonempty_on p.1 p.2 h)

theorem handlerListsNonempty_offSeq {H : Type} [DecidableEq H] (pairs : List (String × H))
    {st : DispatcherState H} (h : handlerListsNonempty st) :
    handlerListsNonempty (offSeq pairs st) := by
  induction pairs generalizing st with
  | nil => exact h
  | cons p pairs ih =>
    rw [offSeq, List.foldl_cons]
    exact ih (handlerListsNonempty_off p.1 (some p.2) h)

theorem handlerListsNonempty_lookup {H : Type} {st : DispatcherState H} {k : String}
    {l : List (HandlerEntry H)} (hwf : handlerListsNonempty st)
    (h : tblLookup k (st.eventHandlers.getD []) = some l) : l ≠ [] := by
  cases hst : st.eventHandlers with
  | none =>
    rw [hst] at h
    simp [tblLookup] at h
  | some tbl =>
    rw [hst, Option.getD_some] at h
    exact hwf tbl hst (k, l) (tblLookup_mem h)

theorem on_warnings {H : Type} [DecidableEq H] (events : String) (fn : H)
    (st : DispatcherState H) :
    («on» events fn st).2 =
      match st.deprecatedEvents with
      | none => []
      | some dep =>
          ((splitWs events).map splitNs).filterMap
            (fun rec => (tblLookup rec.eventName dep).map (depMessage rec.eventName)) := by
  rw [«on»]

theorem fold_push_lookup_getD {H : Type} [DecidableEq H] (recs : List EventRec) (fn : H)
    (a : String) (tbl : HandlerTable H) (hall : ∀ rec ∈ recs, rec.eventName = a) :
    (tblLookup a
        (recs.foldl (fun t r => pushEntry r.eventName ⟨r.eventName, r.ns, fn⟩ t) tbl)).getD []
      = (tblLookup a tbl).getD [] ++ recs.map (fun rec => ⟨rec.eventName, rec.ns, fn⟩) := by
  induction recs generalizing tbl with
  | nil => simp
  | cons rec recs ih =>
    obtain ⟨en, ns⟩ := rec
    have ha : en = a := hall ⟨en, ns⟩ (List.mem_cons_self _ _)
    subst ha
    rw [List.foldl_cons, ih _ (fun r hr => hall r (List.mem_cons_of_mem _ hr))]
    rw [tblLookup_pushEntry_self]
    simp [List.append_assoc]

theorem dep_warnings_map (recs : List EventRec) (a : String) (d : DepInfo)
    (hall : ∀ rec ∈ recs, rec.eventName = a) :
    recs.filterMap
        (fun rec => (tblLookup rec.eventName [(a, d)]).map (depMessage rec.eventName))
      = recs.map (fun _ => depMessage a d) := by
  induction recs with
  | nil => rfl
  | cons rec recs ih =>
    rw [List.filterMap_cons, ih (fun r hr => hall r (List.mem_cons_of_mem _ hr))]
    have ha : rec.eventName = a := hall rec (List.mem_cons_self _ _)
    simp [ha, tblLookup]

/-! Claim theorems. -/

/-- C1: when a registered handler throws during `trigger`, every handler
registered for the event — in particular every one after the throwing
handler in the same dispatch — is still invoked, the failure is forwarded
to the error reporter together with the event name and the host object,
and `trigger` returns normally to its caller (the model of `trigger` is a
total function into invocation traces, so the exception never escapes). -/
theorem trigger_isolates_failures {H Host A E : Type} [DecidableEq H]
    (eventName : String) (args : List A) (host : Host)
    (behave : H → JsEvent Host → List A → Except E Unit)
    (st : DispatcherState H) (hl : List (HandlerEntry H))
    (hlk : st.eventHandlers.bind (tblLookup eventName) = some hl)
    (e : HandlerEntry H) (he : e ∈ hl) (err : E)
    (hthrow : behave e.handler ⟨eventName, host⟩ args = Except.error err) :
    (trigger eventName args host behave st).calls =
      hl.map (fun e => (e.handler, ⟨eventName, host⟩, args)) ∧
    (eventName, host, err) ∈ (trigger eventName args host behave st).reported := by
  rw [trigger_spec, hlk]
  refine ⟨rfl, ?_⟩
  simp only [Option.getD_some]
  exact List.mem_filterMap.mpr ⟨e, he, by rw [hthrow]⟩

/-- Witness for C1 at a concrete input: two handlers `0` and `1` for
event `a`; handler `0` throws, yet both are invoked and the failure is
reported. -/
theorem trigger_isolates_failures_witness :
    (trigger "a" ([] : List Nat) (7 : Nat)
        (fun h _ _ => if h = 0 then Except.error "boom" else Except.ok ())
        ⟨some [("a", [⟨"a", none, 0⟩, ⟨"a", none, 1⟩])], none⟩).calls =
      ([⟨"a", none, 0⟩, ⟨"a", none, 1⟩] : List (HandlerEntry Nat)).map
        (fun e => (e.handler, (⟨"a", 7⟩ : JsEvent Nat), ([] : List Nat))) ∧
    ("a", 7, "boom") ∈ (trigger "a" ([] : List Nat) (7 : Nat)
        (fun h _ _ => if h = 0 then Except.error "boom" else Except.ok ())
        ⟨some [("a", [⟨"a", none, 0⟩, ⟨"a", none, 1⟩])], none⟩).reported :=
  trigger_isolates_failures "a" [] 7
    (fun h _ _ => if h = 0 then Except.error "boom" else Except.ok ())
    ⟨some [("a", [⟨"a", none, 0⟩, ⟨"a", none, 1⟩])], none⟩
    [⟨"a", none, 0⟩, ⟨"a", none, 1⟩] rfl
    ⟨"a", none, 0⟩ (List.mem_cons_self _ _) "boom" (by rfl)

/-- C2: `trigger` synchronously invokes each currently registered handler
record for the event name exactly once, in registration order, passing the
descriptor `{type, target}` followed by the extra arguments; when no
handler list exists for the event name — in particular on an object whose
`on` was never exercised — `trigger` performs no invocation, reports
nothing, and simply returns. -/
theorem trigger_invokes_in_order {H Host A E : Type} [DecidableEq H]
    (eventName : String) (args : List A) (host : Host)
    (behave : H → JsEvent Host → List A → Except E Unit) (st : DispatcherState H) :
    (trigger eventName args host behave st).calls =
      ((st.eventHandlers.bind (tblLookup eventName)).getD []).map
        (fun e => (e.handler, ⟨eventName, host⟩, args)) ∧
    (st.eventHandlers.bind (tblLookup eventName) = none →
      trigger eventName args host behave st = ⟨[], []⟩) := by
  constructor
  · rw [trigger_spec]
  · intro h
    rw [trigger_spec, h]
    simp

/-- Witness for C2 at a concrete input: triggering an event on a freshly
installed object performs no invocation and reports nothing. -/
theorem trigger_invokes_in_order_witness :
    trigger "nonexistent" ([] : List Nat) (0 : Nat)
      (fun _ _ _ => (Except.ok () : Except String Unit)) (makeEventDispatcher Nat)
      = ⟨[], []⟩ :=
  (trigger_invokes_in_order "nonexistent" [] 0
    (fun _ _ _ => (Except.ok () : Except String Unit)) (makeEventDispatcher Nat)).2 rfl

/-- C3: `off` removes exactly the handler records matched by at least one
whitespace-separated token — matching being the conjunction of the
event-name filter (a bare-namespace token applies to every key of the
table), the exact-equality namespace filter when the token carries one,
and the identity filter when a handler is supplied — and the surviving
records of every event keep their relative order; a key whose list empties
is deleted. -/
theorem off_removes_matching_entries {H : Type} [DecidableEq H]
    (events : String) (fn : Option H) (st : DispatcherState H) (tbl : HandlerTable H)
    (k : String) (hst : st.eventHandlers = some tbl)
    (hnd : (tbl.map Prod.fst).Nodup) (hwf : ∀ p ∈ tbl, p.2 ≠ []) :
    tblLookup k ((off events fn st).1.eventHandlers.getD []) =
      match tblLookup k tbl with
      | none => none
      | some hl =>
          if (hl.filter (fun e => !(removedBy ((splitWs events).map splitNs) fn k e))).isEmpty
          then none
          else some (hl.filter (fun e => !(removedBy ((splitWs events).map splitNs) fn k e))) := by
  rw [off_of_some events fn hst]
  dsimp only
  rw [Option.getD_some, offTable]
  exact tblLookup_fold_doRemove fn _ tbl k hnd hwf

/-- Witness for C3 at a concrete input: after registering under
`a.ns1 b.ns2`, the call `off(".ns1")` empties and deletes key `a` while
leaving key `b` untouched. -/
theorem off_removes_matching_entries_witness :
    tblLookup "a" ((off ".ns1" (none : Option Nat)
        ⟨some [("a", [⟨"a", some ".ns1", 0⟩]), ("b", [⟨"b", some ".ns2", 0⟩])],
          none⟩).1.eventHandlers.getD []) = none ∧
    tblLookup "b" ((off ".ns1" (none : Option Nat)
        ⟨some [("a", [⟨"a", some ".ns1", 0⟩]), ("b", [⟨"b", some ".ns2", 0⟩])],
          none⟩).1.eventHandlers.getD []) = some [⟨"b", some ".ns2", 0⟩] := by
  constructor
  · rw [off_removes_matching_entries ".ns1" none _ _ "a" rfl (by decide) (by decide)]
    decide
  · rw [off_removes_matching_entries ".ns1" none _ _ "b" rfl (by decide) (by decide)]
    decide

/-- C4: registering the same handler twice for event `a` creates two
independent records, triggering `a` invokes the handler exactly twice, and
a single `off("a", handler)` removes both records at once — the comparison
being equality of handler references. -/
theorem duplicate_registration {H Host A E : Type} [DecidableEq H]
    (f : H) (host : Host) (args : List A)
    (behave : H → JsEvent Host → List A → Except E Unit) :
    (trigger "a" args host behave
        («on» "a" f («on» "a" f (makeEventDispatcher H)).1).1).calls =
      [(f, ⟨"a", host⟩, args), (f, ⟨"a", host⟩, args)] ∧
    tblLookup "a"
      ((off "a" (some f)
        («on» "a" f («on» "a" f (makeEventDispatcher H)).1).1).1.eventHandlers.getD [])
      = none := by
  have hst : («on» "a" f («on» "a" f (makeEventDispatcher H)).1).1 =
      ⟨some [("a", [⟨"a", none, f⟩, ⟨"a", none, f⟩])], none⟩ := rfl
  rw [hst]
  constructor
  · rw [trigger_spec]
    rfl
  · rw [off_of_some "a" (some f) rfl]
    dsimp only
    rw [Option.getD_some, offTable]
    have hsplit : (splitWs "a").map splitNs = [(⟨"a", none⟩ : EventRec)] := rfl
    rw [hsplit, tblLookup_fold_doRemove (some f) _ _ "a" (by simp) (by simp)]
    simp [tblLookup, removedBy, recApplies, matchesEntry, nsMatches]

/-- C5 counterexample: called with the empty specification string, `on`
does not fail with `InvalidArgument`; it registers a handler entry under
the empty-string event name, so the claim that nothing is registered in
that case is false. -/
theorem on_no_validation_cex :
    («on» "" (0 : Nat) (makeEventDispatcher Nat)).1.eventHandlers =
      some [("", [⟨"", none, 0⟩])] := by
  decide

/-- C5 amended: `on` performs no argument validation at all — there is no
`InvalidArgument` check in the source — and an empty specification string,
parsed as the single empty boundary token, appends a handler entry under
the empty-string event name instead of failing. -/
theorem on_no_validation_amended {H : Type} [DecidableEq H] (f : H)
    (st : DispatcherState H) :
    tblLookup "" ((«on» "" f st).1.eventHandlers.getD []) =
      some ((tblLookup "" (st.eventHandlers.getD [])).getD [] ++ [⟨"", none, f⟩]) := by
  rw [on_eventHandlers, Option.getD_some]
  have hsplit : (splitWs "").map splitNs = [(⟨"", none⟩ : EventRec)] := rfl
  rw [hsplit, List.foldl_cons, List.foldl_nil]
  exact tblLookup_pushEntry_self "" _ _

/-- C6 counterexample: on an object that has never had a handler
registered, `off` takes the early `return;` and hands `undefined` back to
its caller instead of the host object, so the claim that `off` always
returns the host object for chaining is false. -/
theorem off_returns_self_cex :
    (off "a" (none : Option Nat) (makeEventDispatcher Nat)).2 ≠ OffResult.self := by
  decide

/-- C6 amended: `off` returns the host object whenever the handler table
exists — that is, after any `on` call — but on an object that never had a
handler registered it does nothing and returns `undefined` from the early
return instead of the host object. -/
theorem off_returns_self_amended {H : Type} [DecidableEq H] (events : String)
    (fn : Option H) (st : DispatcherState H) :
    (st.eventHandlers ≠ none → (off events fn st).2 = OffResult.self) ∧
    (st.eventHandlers = none → off events fn st = (st, OffResult.undefined)) := by
  constructor
  · intro h
    cases hst : st.eventHandlers with
    | none => exact absurd hst h
    | some tbl => rw [off_of_some events fn hst]
  · intro h
    exact off_of_none events fn h

/-- Witness for C6 (amended) at a concrete input: once a handler table
exists, `off` returns the host object. -/
theorem off_returns_self_amended_witness :
    (off "b" (none : Option Nat) («on» "a" 0 (makeEventDispatcher Nat)).1).2
      = OffResult.self :=
  (off_returns_self_amended "b" none («on» "a" 0 (makeEventDispatcher Nat)).1).1
    (by decide)

/-- C7: in every state reachable by a sequence of `on`, `off` and
`markDeprecated` calls from a fresh object, each event-name key present in
the handler table stores a non-empty list of handler records: `on` only
creates a key together with its first record, and `off` deletes a key as
soon as it empties its list. -/
theorem handler_table_values_nonempty {H : Type} [DecidableEq H]
    {st : DispatcherState H} (h : Reachable st) :
    ∀ tbl, st.eventHandlers = some tbl → ∀ p ∈ tbl, p.2 ≠ [] :=
  (reachable_invariants h).2

/-- Witness for C7 at a concrete reachable state: after one `on` call the
single stored handler list is non-empty. -/
theorem handler_table_values_nonempty_witness :
    (("a", [(⟨"a", none, 0⟩ : HandlerEntry Nat)]) : String × List (HandlerEntry Nat)).2
      ≠ [] :=
  handler_table_values_nonempty (Reachable.stepOn "a" 0 _ Reachable.init)
    [("a", [⟨"a", none, 0⟩])] rfl ("a", [⟨"a", none, 0⟩]) (List.mem_cons_self _ _)

/-- C8: starting from an empty handler table, any sequence of `on` calls
followed by the inverse sequence of `off` calls with the same
specification strings and the same handlers leaves the handler table with
no entry under any event name. -/
theorem on_off_roundtrip {H : Type} [DecidableEq H] (pairs : List (String × H))
    (k : String) :
    tblLookup k
      ((offSeq pairs.reverse (onSeq pairs (makeEventDispatcher H))).eventHandlers.getD [])
      = none := by
  have hnd0 : handlerKeysNodup (onSeq pairs (makeEventDispatcher H)) :=
    handlerKeysNodup_onSeq pairs handlerKeysNodup_make
  have hwf0 : handlerListsNonempty (onSeq pairs (makeEventDispatcher H)) :=
    handlerListsNonempty_onSeq pairs handlerListsNonempty_make
  have hwf1 : handlerListsNonempty
      (offSeq pairs.reverse (onSeq pairs (makeEventDispatcher H))) :=
    handlerListsNonempty_offSeq _ hwf0
  have hempty : ∀ e : HandlerEntry H,
      e ∉ entriesFor (offSeq pairs.reverse (onSeq pairs (makeEventDispatcher H))) k := by
    intro e h
    obtain ⟨h1, h2⟩ := mem_entriesFor_offSeq hnd0 hwf0 h
    rcases mem_entriesFor_onSeq h1 with h3 | ⟨p, hp, hfp⟩
    · rw [entriesFor] at h3
      simp [makeEventDispatcher, tblLookup] at h3
    · exact h2 p (List.mem_reverse.mpr hp) hfp
  cases hL : tblLookup k
      ((offSeq pairs.reverse (onSeq pairs (makeEventDispatcher H))).eventHandlers.getD [])
      with
  | none => rfl
  | some l =>
    exfalso
    have hne := handlerListsNonempty_lookup hwf1 hL
    rcases l with _ | ⟨x, l⟩
    · exact hne rfl
    · refine hempty x ?_
      rw [entriesFor, hL]
      exact List.mem_cons_self _ _

/-- C9: after `markDeprecated` has flagged an event name, an `on` call
whose (single) token registers for that event name reports exactly one
warning through the warning reporter — its text carries the event name
and, when one was given, the suggested replacement — and the registration
still completes: a subsequent `trigger` of the event invokes the handler.
The warning never blocks the registration. -/
theorem deprecated_on_warns_and_registers {H Host A E : Type} [DecidableEq H]
    (a spec : String) (sugg : Option String) (f : H) (host : Host) (args : List A)
    (behave : H → JsEvent Host → List A → Except E Unit) (recs : List EventRec)
    (hsplit : (splitWs spec).map splitNs = recs)
    (hall : ∀ rec ∈ recs, rec.eventName = a) :
    («on» spec f (markDeprecated a sugg (makeEventDispatcher H))).2 =
      recs.map (fun _ => depMessage a (depInfoOf sugg)) ∧
    (∃ pre post, depMessage a (depInfoOf sugg) = pre ++ a ++ post) ∧
    (∀ s, sugg = some s → s ≠ "" →
      ∃ pre post, depMessage a (depInfoOf sugg) = pre ++ s ++ post) ∧
    (trigger a args host behave
        («on» spec f (markDeprecated a sugg (makeEventDispatcher H))).1).calls =
      recs.map (fun _ => (f, ⟨a, host⟩, args)) := by
  have hdep : (markDeprecated a sugg (makeEventDispatcher H)).deprecatedEvents
      = some [(a, depInfoOf sugg)] := rfl
  refine ⟨?_, ?_, ?_, ?_⟩
  · rw [on_warnings, hdep, hsplit]
    exact dep_warnings_map recs a (depInfoOf sugg) hall
  · refine ⟨"Registering for deprecated event " ++ singleQuote, ?_⟩
    cases hs : depInfoOf sugg with
    | flag => exact ⟨singleQuote ++ ".", by simp [depMessage, String.append_assoc]⟩
    | use s =>
      exact ⟨singleQuote ++ "." ++ " Use " ++ s ++ " instead.",
        by simp [depMessage, String.append_assoc]⟩
  · intro s hs hne
    rw [hs]
    refine ⟨"Registering for deprecated event " ++ singleQuote ++ a ++ singleQuote
      ++ "." ++ " Use ", " instead.", ?_⟩
    simp [depInfoOf, hne, depMessage, String.append_assoc]
  · rw [trigger_spec, on_eventHandlers, hsplit]
    have hnone : (markDeprecated a sugg (makeEventDispatcher H)).eventHandlers = none := rfl
    rw [hnone]
    have hbind : ∀ tbl : HandlerTable H,
        ((some tbl).bind (tblLookup a)).getD [] = (tblLookup a tbl).getD [] :=
      fun tbl => rfl
    rw [hbind, fold_push_lookup_getD recs f a _ hall]
    have h0 : (tblLookup a ((none : Option (HandlerTable H)).getD [])).getD []
        = ([] : List (HandlerEntry H)) := rfl
    rw [h0, List.nil_append, List.map_map]
    rfl

/-- Witness for C9 at a concrete input: `a` marked deprecated with
suggestion `b`, then registered and triggered. -/
theorem deprecated_on_warns_and_registers_witness :
    («on» "a" (0 : Nat) (markDeprecated "a" (some "b") (makeEventDispatcher Nat))).2 =
      [depMessage "a" (depInfoOf (some "b"))] ∧
    (∃ pre post, depMessage "a" (depInfoOf (some "b")) = pre ++ "a" ++ post) ∧
    (∀ s, (some "b" : Option String) = some s → s ≠ "" →
      ∃ pre post, depMessage "a" (depInfoOf (some "b")) = pre ++ s ++ post) ∧
    (trigger "a" ([] : List Nat) (9 : Nat)
        (fun _ _ _ => (Except.ok () : Except String Unit))
        («on» "a" (0 : Nat) (markDeprecated "a" (some "b") (makeEventDispatcher Nat))).1).calls =
      [(0, ⟨"a", 9⟩, [])] :=
  deprecated_on_warns_and_registers "a" "a" (some "b") 0 9 []
    (fun _ _ _ => (Except.ok () : Except String Unit)) [⟨"a", none⟩] rfl (by decide)

/-- C10: a specification string with leading or trailing whitespace splits
into an empty boundary token in addition to its named tokens, so `on`
registers an extra handler entry under the empty-string event name
alongside the intended registrations. -/
theorem on_whitespace_boundary_token {H : Type} [DecidableEq H]
    (spec : String) (f : H) (st : DispatcherState H)
    (h : (∃ c cs, spec.data = c :: cs ∧ jsIsSpace c = true) ∨
         (∃ c, spec.data.getLast? = some c ∧ jsIsSpace c = true)) :
    "" ∈ splitWs spec ∧
    tblLookup "" ((«on» spec f st).1.eventHandlers.getD []) ≠ none := by
  have hmem : "" ∈ splitWs spec := by
    rcases h with ⟨c, cs, hd, hc⟩ | ⟨c, hd, hc⟩
    · exact splitWs_head_space hd hc
    · exact splitWs_last_space hd hc
  refine ⟨hmem, ?_⟩
  rw [on_eventHandlers, Option.getD_some]
  have hrec : (⟨"", none⟩ : EventRec) ∈ (splitWs spec).map splitNs :=
    List.mem_map.mpr ⟨"", hmem, rfl⟩
  exact fold_push_lookup_of_mem f _ hrec

/-- Witness for C10 at a concrete input: the specification `" a"` (one
leading space) yields the boundary token and an entry under the empty
event name. -/
theorem on_whitespace_boundary_token_witness :
    "" ∈ splitWs " a" ∧
    tblLookup ""
      ((«on» " a" (0 : Nat) (makeEventDispatcher Nat)).1.eventHandlers.getD []) ≠ none :=
  on_whitespace_boundary_token " a" 0 (makeEventDispatcher Nat)
    (Or.inl ⟨' ', ['a'], rfl, rfl⟩)

end EventDispatcher
